import Mathlib

/-!
# A verification development for the redux-state-tree composition core

We give a shallow embedding of the tree-composition core (src/index.js):
`createNode`, `createChild`, `createState` and the thunk lifecycle wrapper,
and prove the documented laws about the composed transition function, the
action-creator registries and the thunk lifecycle.

Modelling choices:
* JavaScript values are the inductive `Val` (null, undefined, numbers,
  strings, objects as ordered field lists).
* `undefined` arguments (default-parameter seeding) are `Option`, with
  `none` standing for `undefined`.
* The external Mutator (immer's `produce`) is out of scope per the design:
  a mutation-style update function is represented by its input/output
  behaviour, so `produce f s a` is plain application.  Identity of
  untouched values collapses to equality in the embedding.
* The asynchronous thunk wrapper is embedded as a trace semantics: an
  operation is characterised by how its invocation behaves (synchronous
  throw, or a returned promise that fulfils/rejects), and the wrapper maps
  that behaviour to the ordered list of events it produces plus the outcome
  of the promise the wrapper returns.
-/

namespace RST

/-- JavaScript values, as far as the core manipulates them. -/
inductive Val where
  | null : Val
  | undefined : Val
  | num : Int → Val
  | str : String → Val
  | obj : List (String × Val) → Val

/-- A dispatched action object: `{ type, payload }`. -/
structure Action where
  type : String
  payload : Val

/-- The external Mutator (immer's `produce`): given a mutation-style update
function, a prior value and the action, produce the new value.  The update
function is represented by its input/output behaviour, so this is plain
application. -/
def produce {σ τ : Type} (f : σ → Action → τ) (s : σ) (a : Action) : τ := f s a

/-- A runtime state node: `{ node: V, children: { label: StateNode } }`. -/
inductive SNode where
  | mk : Val → List (String × SNode) → SNode

/-- The `node` field of a runtime state node. -/
def SNode.nodeVal : SNode → Val
  | .mk v _ => v

/-- The `children` field of a runtime state node. -/
def SNode.kids : SNode → List (String × SNode)
  | .mk _ ks => ks

/-- A Leaf Node definition: initial value plus local event reducers
(`createNode(initialState, reducers)`). -/
structure NodeT where
  initialState : Val
  reducers : List (String × (Val → Action → Val))

/-- `createNode` keeps the source constructor name. -/
def createNode (initialState : Val)
    (reducers : List (String × (Val → Action → Val)) := []) : NodeT :=
  ⟨initialState, reducers⟩

/-- Scan an event-name-keyed map for the first entry whose qualified name
`path ++ "/" ++ label` equals the action type (the loop in the source). -/
def findReducer {α : Type} (reducers : List (String × α)) (path t : String) :
    Option α :=
  match reducers with
  | [] => none
  | (label, f) :: rest =>
      if t = path ++ "/" ++ label then some f else findReducer rest path t

/-- The transition function a Leaf Node builds for a given path
(`createNode(...).reducer(path)`); `none` is JavaScript `undefined`, replaced
by the initial value through the default parameter. -/
def NodeT.reducerFn (n : NodeT) (path : String) (state : Option Val)
    (action : Action) : Val :=
  let s := state.getD n.initialState
  match findReducer n.reducers path action.type with
  | some f => produce f s action
  | none => s

/-- How a promise settles. -/
inductive PromiseOutcome where
  | fulfilled : Val → PromiseOutcome
  | rejected : Val → PromiseOutcome

/-- How invoking an asynchronous operation with `(dispatch, getState)`
behaves: it either throws synchronously, or yields a promise that settles. -/
inductive OpBehavior where
  | throws : Val → OpBehavior
  | settles : PromiseOutcome → OpBehavior

mutual
/-- A State definition (`createState({node, children, actions, thunks})`):
a Leaf Node, labelled Child Links, local action creators (argument list to
payload) and local thunk creators (argument list to the behaviour of the
asynchronous operation they return). -/
inductive StateDef where
  | mk : NodeT → ChildrenDef → List (String × (List Val → Val)) →
      List (String × (List Val → OpBehavior)) → StateDef

/-- The labelled Child Links of a State, in definition order. -/
inductive ChildrenDef where
  | nil : ChildrenDef
  | cons : String → ChildDef → ChildrenDef → ChildrenDef

/-- A Child Link (`createChild(childState, reducers)`): a nested State plus
override reducers acting on the entire child state node (possibly
`undefined` on the seeding pass). -/
inductive ChildDef where
  | mk : StateDef → List (String × (Option SNode → Action → SNode)) → ChildDef
end

/-- First-match lookup in a unique-keyed map (JavaScript property access on
an object `mapObject` built). -/
def lookupFirst {β : Type} : List (String × β) → String → Option β
  | [], _ => none
  | (k, v) :: rest, key => if k = key then some v else lookupFirst rest key

/-- Look up the first child entry with the given label (JavaScript property
access on the prior `children` object, which may be `undefined`). -/
def kidLookup (kids : Option (List (String × SNode))) (label : String) :
    Option SNode :=
  match kids with
  | none => none
  | some ks => lookupFirst ks label

mutual
/-- The composed transition function of a State
(`createState(...).reducer(path)`): rebuild `{node, children}` by fanning
the action out to the Leaf Node and to every Child Link. -/
def StateDef.reducerFn : StateDef → String → Option SNode → Action → SNode
  | .mk nd cs _ _, path, state, action =>
      .mk (nd.reducerFn path (state.map SNode.nodeVal) action)
        (ChildrenDef.reduceFn cs path (state.map SNode.kids) action)
  termination_by structural x _ _ _ => x

/-- Transition every Child Link, reading the prior child node off the prior
`children` object (`mapObject` in the source). -/
def ChildrenDef.reduceFn : ChildrenDef → String →
    Option (List (String × SNode)) → Action → List (String × SNode)
  | .nil, _, _, _ => []
  | .cons label c rest, path, kids, action =>
      (label, ChildDef.reducerFn c path label (kidLookup kids label) action)
        :: ChildrenDef.reduceFn rest path kids action
  termination_by structural x _ _ _ => x

/-- The transition function a Child Link builds
(`createChild(...).reducer(path, label)`): first scan the overrides against
the parent path, otherwise delegate to the nested State at
`path ++ "/" ++ label`. -/
def ChildDef.reducerFn : ChildDef → String → String → Option SNode → Action →
    SNode
  | .mk cst ovs, path, label, state, action =>
      match findReducer ovs path action.type with
      | some f => produce f state action
      | none => StateDef.reducerFn cst (path ++ "/" ++ label) state action
  termination_by structural x _ _ _ _ => x
end

mutual
/-- The fully seeded runtime tree of a State definition: every Leaf Node
contributes its initial value, every Child Link its own seeded subtree. -/
def StateDef.seed : StateDef → SNode
  | .mk nd cs _ _ => .mk nd.initialState (ChildrenDef.seed cs)
  termination_by structural x => x

def ChildrenDef.seed : ChildrenDef → List (String × SNode)
  | .nil => []
  | .cons label c rest => (label, ChildDef.seed c) :: ChildrenDef.seed rest
  termination_by structural x => x

def ChildDef.seed : ChildDef → SNode
  | .mk cst _ => StateDef.seed cst
  termination_by structural x => x
end

/-- The labels of the Child Links, in definition order. -/
def ChildrenDef.labels : ChildrenDef → List String
  | .nil => []
  | .cons l _ rest => l :: rest.labels

/-- All keys of an event-name-keyed map. -/
def keys {α : Type} (m : List (String × α)) : List String := m.map Prod.fst

/-- Keys are pairwise distinct (true of every JavaScript object literal). -/
def nodupKeys : List String → Bool
  | [] => true
  | k :: rest => (!rest.contains k) && nodupKeys rest

mutual
/-- The action type `t`, dispatched against the tree rooted here at `path`,
matches no leaf reducer and no child override anywhere in the tree. -/
def StateDef.noHandler : StateDef → String → String → Bool
  | .mk nd cs _ _, path, t =>
      (findReducer nd.reducers path t).isNone && ChildrenDef.noHandler cs path t
  termination_by structural x _ _ => x

def ChildrenDef.noHandler : ChildrenDef → String → String → Bool
  | .nil, _, _ => true
  | .cons label c rest, path, t =>
      ChildDef.noHandler c path label t && ChildrenDef.noHandler rest path t
  termination_by structural x _ _ => x

def ChildDef.noHandler : ChildDef → String → String → String → Bool
  | .mk cst ovs, path, label, t =>
      (findReducer ovs path t).isNone &&
        StateDef.noHandler cst (path ++ "/" ++ label) t
  termination_by structural x _ _ _ => x
end

mutual
/-- The definition tree is well formed: child labels are pairwise distinct at
every level (guaranteed by JavaScript object literals). -/
def StateDef.wellFormed : StateDef → Bool
  | .mk _ cs _ _ => nodupKeys cs.labels && ChildrenDef.wellFormed cs
  termination_by structural x => x

def ChildrenDef.wellFormed : ChildrenDef → Bool
  | .nil => true
  | .cons _ c rest => ChildDef.wellFormed c && ChildrenDef.wellFormed rest
  termination_by structural x => x

def ChildDef.wellFormed : ChildDef → Bool
  | .mk cst _ => StateDef.wellFormed cst
  termination_by structural x => x
end

mutual
/-- The runtime state node mirrors the definition tree: its children carry
exactly the definition labels, in definition order, recursively. -/
def StateDef.conforms : StateDef → SNode → Bool
  | .mk _ cs _ _, .mk _ ks => ChildrenDef.conforms cs ks
  termination_by structural x _ => x

def ChildrenDef.conforms : ChildrenDef → List (String × SNode) → Bool
  | .nil, ks => ks.isEmpty
  | .cons label c rest, ks =>
      match ks with
      | [] => false
      | (l, s) :: krest =>
          (l == label) && ChildDef.conforms c s && ChildrenDef.conforms rest krest
  termination_by structural x _ => x

def ChildDef.conforms : ChildDef → SNode → Bool
  | .mk cst _, s => StateDef.conforms cst s
  termination_by structural x _ => x
end

/-! ## Creator registries

A registry is the JavaScript object tree
`{ _: { name: creatorFn }, childLabel: subtree }`.  An object literal with a
spread assigns properties in order, a later assignment overwriting an
earlier one with the same key; `objGet` realises that lookup semantics. -/

/-- A creator registry tree: either the map of local creators (`_` bucket
value) or an object of entries. -/
inductive Reg (α : Type) where
  | creators : List (String × (List Val → α)) → Reg α
  | obj : List (String × Reg α) → Reg α

/-- Property lookup in an object built by assigning the listed entries in
order: a later entry with the same key overwrites an earlier one. -/
def objGet {β : Type} : List (String × β) → String → Option β
  | [], _ => none
  | (k, v) :: rest, key =>
      match objGet rest key with
      | some w => some w
      | none => if k = key then some v else none

/-- The `_` bucket contents of the actions registry: every local creator
`f` under name `n` becomes `(...args) => {type: path ++ "/" ++ n,
payload: f(...args)}`. -/
def actionsBucket (acts : List (String × (List Val → Val))) (path : String) :
    List (String × (List Val → Action)) :=
  acts.map fun p => (p.1, fun args => ⟨path ++ "/" ++ p.1, p.2 args⟩)

mutual
/-- The composed action-creator registry (`createState(...).actions(path)` and
`createChild(...).actions(path, label)`). -/
def StateDef.actionsFn : StateDef → String → Reg Action
  | .mk _ cs acts _, path =>
      .obj (("_", .creators (actionsBucket acts path))
        :: ChildrenDef.actionsFn cs path)
  termination_by structural x _ => x

def ChildrenDef.actionsFn : ChildrenDef → String → List (String × Reg Action)
  | .nil, _ => []
  | .cons label c rest, path =>
      (label, ChildDef.actionsFn c path label) :: ChildrenDef.actionsFn rest path
  termination_by structural x _ => x

def ChildDef.actionsFn : ChildDef → String → String → Reg Action
  | .mk cst _, path, label => StateDef.actionsFn cst (path ++ "/" ++ label)
  termination_by structural x _ _ => x
end

/-! ## Thunk lifecycle -/

/-- An observable event of a composed thunk invocation: a dispatch performed
by the wrapper, or the invocation of the wrapped asynchronous operation. -/
inductive TEvent where
  | dispatched : Action → TEvent
  | invokeOp : TEvent

/-- Running one invocation of the composed thunk built at `path` for local
name `name`: dispatch Pending, invoke the operation, then dispatch exactly
one of Resolved/Rejected when its promise settles (`.then` / `.catch`); a
synchronous throw escapes after Pending and rejects the wrapper's own
promise.  Returns the ordered event trace and the outcome of the promise
the wrapper returns. -/
def runThunk (path name : String) (op : OpBehavior) :
    List TEvent × PromiseOutcome :=
  let pend : TEvent := .dispatched ⟨path ++ "/" ++ name ++ "Pending", .null⟩
  match op with
  | .throws e => ([pend, .invokeOp], .rejected e)
  | .settles (.fulfilled r) =>
      ([pend, .invokeOp,
        .dispatched ⟨path ++ "/" ++ name ++ "Resolved", r⟩], .fulfilled .undefined)
  | .settles (.rejected e) =>
      ([pend, .invokeOp,
        .dispatched ⟨path ++ "/" ++ name ++ "Rejected", e⟩], .fulfilled .undefined)

/-- The `_` bucket contents of the thunks registry: every local thunk creator
`t` under name `n` becomes the composed creator whose invocation at `args`
runs the lifecycle around the operation `t args`. -/
def thunksBucket (thks : List (String × (List Val → OpBehavior)))
    (path : String) :
    List (String × (List Val → List TEvent × PromiseOutcome)) :=
  thks.map fun p => (p.1, fun args => runThunk path p.1 (p.2 args))

mutual
/-- The composed thunk-creator registry (`createState(...).thunks(path)` and
`createChild(...).thunks(path, label)`). -/
def StateDef.thunksFn : StateDef → String →
    Reg (List TEvent × PromiseOutcome)
  | .mk _ cs _ thks, path =>
      .obj (("_", .creators (thunksBucket thks path))
        :: ChildrenDef.thunksFn cs path)
  termination_by structural x _ => x

def ChildrenDef.thunksFn : ChildrenDef → String →
    List (String × Reg (List TEvent × PromiseOutcome))
  | .nil, _ => []
  | .cons label c rest, path =>
      (label, ChildDef.thunksFn c path label) :: ChildrenDef.thunksFn rest path
  termination_by structural x _ => x

def ChildDef.thunksFn : ChildDef → String → String →
    Reg (List TEvent × PromiseOutcome)
  | .mk cst _, path, label => StateDef.thunksFn cst (path ++ "/" ++ label)
  termination_by structural x _ _ => x
end

/-- The Leaf Node of a State definition. -/
def StateDef.nodeOf : StateDef → NodeT
  | .mk nd _ _ _ => nd

/-- The Child Links of a State definition. -/
def StateDef.childrenOf : StateDef → ChildrenDef
  | .mk _ cs _ _ => cs

/-- The local action creators of a State definition. -/
def StateDef.localActs : StateDef → List (String × (List Val → Val))
  | .mk _ _ acts _ => acts

/-- The local thunk creators of a State definition. -/
def StateDef.localThks : StateDef → List (String × (List Val → OpBehavior))
  | .mk _ _ _ thks => thks

/-- First child entry with the given label. -/
def ChildrenDef.findChild : ChildrenDef → String → Option ChildDef
  | .nil, _ => none
  | .cons l c rest, k => if l = k then some c else rest.findChild k

/-- Property access on a registry object. -/
def Reg.propGet {α : Type} : Reg α → String → Option (Reg α)
  | .creators _, _ => none
  | .obj entries, k => objGet entries k

/-- The accessor `createStore` exposes: select a registry subtree, take its
`_` property, and read the named creator off the resulting flat map. -/
def Reg.localCreator {α : Type} (r : Reg α) (name : String) :
    Option (List Val → α) :=
  match r.propGet "_" with
  | some (.creators m) => lookupFirst m name
  | _ => none

/-! ## The end-to-end child scenario (spec §8)

Root State with a Child Link `a` whose nested State has leaf `{value: 0}`,
a local action creator `increaseByAmount(amount) => amount` and a leaf
reducer adding `action.payload` to `value`. -/

/-- Integer addition on numeric values. -/
def vAdd : Val → Val → Val
  | .num x, .num y => .num (x + y)
  | v, _ => v

/-- The scenario's mutation-style leaf reducer, `value += action.payload`,
represented by its input/output behaviour. -/
def addPayloadToValue (s : Val) (a : Action) : Val :=
  match s with
  | .obj fs =>
      .obj (fs.map fun p => if p.1 = "value" then (p.1, vAdd p.2 a.payload) else p)
  | v => v

/-- The scenario's local action creator: `increaseByAmount(amount) => amount`. -/
def increaseByAmount : List Val → Val := fun args => args.headD .undefined

/-- The nested State attached at label "a". -/
def scenarioA : StateDef :=
  .mk (createNode (.obj [("value", .num 0)])
        [("increaseByAmount", addPayloadToValue)])
    .nil
    [("increaseByAmount", increaseByAmount)]
    []

/-- The root State of the scenario: leaf `{value: 0}` and Child Link "a". -/
def scenarioRoot : StateDef :=
  .mk (createNode (.obj [("value", .num 0)]) [])
    (.cons "a" (.mk scenarioA []) .nil)
    [] []

/-- The action `actions(s => s.a).increaseByAmount(5)` produces. -/
def scenarioDispatch : Action :=
  match (scenarioRoot.actionsFn "").propGet "a" with
  | some sub =>
      match sub.localCreator "increaseByAmount" with
      | some g => g [.num 5]
      | none => ⟨"", .undefined⟩
  | none => ⟨"", .undefined⟩

/-- A sample leaf update function used in witnesses. -/
def incr1 : Val → Action → Val := fun s _ => vAdd s (.num 1)

/-- A sample child override used in witnesses: reset the entire child node. -/
def resetChild : Option SNode → Action → SNode := fun _ _ => .mk .null []

/-- A sample thunk creator used in witnesses: resolve with the first
argument. -/
def sampleThunk : List Val → OpBehavior :=
  fun args => .settles (.fulfilled (args.headD .undefined))

end RST

namespace RST

/-! ## Helper lemmas -/

theorem str_append_cancel {p a b : String} (h : p ++ a = p ++ b) : a = b := by
  have h2 : (p ++ a).data = (p ++ b).data := by rw [h]
  rw [String.data_append, String.data_append] at h2
  exact String.ext (List.append_cancel_left h2)

theorem keys_cons {α : Type} (e : String) (f : α) (rest : List (String × α)) :
    keys ((e, f) :: rest) = e :: keys rest := rfl

theorem nodupKeys_cons {k : String} {ks : List String}
    (h : nodupKeys (k :: ks) = true) :
    ks.contains k = false ∧ nodupKeys ks = true := by
  simp only [nodupKeys, Bool.and_eq_true, Bool.not_eq_true'] at h
  exact h

theorem not_mem_of_contains_false {ks : List String} {k : String}
    (h : ks.contains k = false) : k ∉ ks := by
  intro hm
  have h2 : ks.contains k = true := List.elem_iff.mpr hm
  rw [h2] at h
  cases h

theorem findReducer_eq_none {α : Type} {m : List (String × α)} {path t : String}
    (h : ∀ e ∈ keys m, t ≠ path ++ "/" ++ e) : findReducer m path t = none := by
  induction m with
  | nil => rfl
  | cons hd rest ih =>
      obtain ⟨e, f⟩ := hd
      have he : t ≠ path ++ "/" ++ e := h e (by
        rw [keys_cons]; exact List.mem_cons_self _ _)
      simp only [findReducer]
      rw [if_neg he]
      exact ih fun e2 hm => h e2 (by
        rw [keys_cons]; exact List.mem_cons_of_mem _ hm)

theorem findReducer_eq_some {α : Type} {m : List (String × α)} {path e : String}
    {f : α} (hnd : nodupKeys (keys m) = true) (hmem : (e, f) ∈ m) :
    findReducer m path (path ++ "/" ++ e) = some f := by
  induction m with
  | nil => cases hmem
  | cons hd rest ih =>
      obtain ⟨e2, f2⟩ := hd
      rw [keys_cons] at hnd
      obtain ⟨hc, hnd2⟩ := nodupKeys_cons hnd
      rcases List.mem_cons.mp hmem with heq | hm
      · injection heq with h1 h2
        subst h1
        subst h2
        simp [findReducer]
      · have hne : e ≠ e2 := by
          intro hcontra
          subst hcontra
          have hmm : e ∈ keys rest := List.mem_map_of_mem Prod.fst hm
          exact not_mem_of_contains_false hc hmm
        have hneq : ¬(path ++ "/" ++ e = path ++ "/" ++ e2) := fun hh =>
          hne (str_append_cancel hh)
        simp only [findReducer]
        rw [if_neg hneq]
        exact ih hnd2 hm

theorem lookupFirst_map {α β : Type} (g : String → α → β)
    {m : List (String × α)} {n : String} {f : α}
    (h : lookupFirst m n = some f) :
    lookupFirst (m.map fun p => (p.1, g p.1 p.2)) n = some (g n f) := by
  induction m with
  | nil => simp [lookupFirst] at h
  | cons hd rest ih =>
      obtain ⟨k, v⟩ := hd
      by_cases hk : k = n
      · subst hk
        simp only [lookupFirst, if_pos rfl] at h
        injection h with h2
        subst h2
        simp [lookupFirst]
      · simp only [lookupFirst, if_neg hk] at h
        simp only [List.map, lookupFirst, if_neg hk]
        exact ih h

theorem lookupFirst_actionsBucket {acts : List (String × (List Val → Val))}
    {n : String} {f : List Val → Val} (path : String)
    (h : lookupFirst acts n = some f) :
    lookupFirst (actionsBucket acts path) n =
      some (fun args => ⟨path ++ "/" ++ n, f args⟩) :=
  @lookupFirst_map (List Val → Val) (List Val → Action)
    (fun nm fn => fun args => ⟨path ++ "/" ++ nm, fn args⟩) acts n f h

theorem lookupFirst_thunksBucket {thks : List (String × (List Val → OpBehavior))}
    {n : String} {t : List Val → OpBehavior} (path : String)
    (h : lookupFirst thks n = some t) :
    lookupFirst (thunksBucket thks path) n =
      some (fun args => runThunk path n (t args)) :=
  @lookupFirst_map (List Val → OpBehavior) (List Val → List TEvent × PromiseOutcome)
    (fun nm tf => fun args => runThunk path nm (tf args)) thks n t h

/-! ## The claims -/

/-- Claim C1: a Child Link's transition first scans the overrides against the
parent path: if the action type is the parent path qualified with an
override key, it returns the Mutator applied to that override and the
entire prior child state node; if it is qualified with no override key, it
delegates to the nested State's composed transition at
`path ++ "/" ++ label`, passing state and action through unchanged.  The
two hypotheses are mutually exclusive and exhaustive, so exactly one of
override-application or delegation happens per action. -/
theorem childLink_override_or_delegate (cst : StateDef)
    (ovs : List (String × (Option SNode → Action → SNode)))
    (path label : String) (s : Option SNode) (a : Action)
    (hnd : nodupKeys (keys ovs) = true) :
    (∀ e fn, (e, fn) ∈ ovs → a.type = path ++ "/" ++ e →
      ChildDef.reducerFn (.mk cst ovs) path label s a = produce fn s a) ∧
    ((∀ e ∈ keys ovs, a.type ≠ path ++ "/" ++ e) →
      ChildDef.reducerFn (.mk cst ovs) path label s a =
        StateDef.reducerFn cst (path ++ "/" ++ label) s a) := by
  constructor
  · intro e fn hmem ht
    simp only [ChildDef.reducerFn]
    rw [ht, findReducer_eq_some hnd hmem]
  · intro h
    simp only [ChildDef.reducerFn]
    rw [findReducer_eq_none h]

theorem childLink_override_or_delegate_witness :
    nodupKeys (keys [("reset", resetChild)]) = true ∧
    ("reset", resetChild) ∈ [("reset", resetChild)] ∧
    Action.type ⟨"p/reset", .null⟩ = "p" ++ "/" ++ "reset" ∧
    ChildDef.reducerFn (.mk scenarioA [("reset", resetChild)]) "p" "a"
      (some (.mk .null [])) ⟨"p/reset", .null⟩ =
      produce resetChild (some (.mk .null [])) ⟨"p/reset", .null⟩ :=
  ⟨rfl, List.mem_singleton.mpr rfl, rfl,
    (childLink_override_or_delegate scenarioA [("reset", resetChild)] "p" "a"
        (some (.mk .null [])) ⟨"p/reset", .null⟩ rfl).1 "reset" resetChild
      (List.mem_singleton.mpr rfl) rfl⟩

/-- Claim C2: a Leaf Node's transition at `path`, on a defined prior value
`s`: if the action type is `path` qualified with a reducer key, it returns
the Mutator applied to that reducer and `s`; if it matches no reducer key,
it returns `s` itself unchanged. -/
theorem leaf_transition_spec (init : Val)
    (rds : List (String × (Val → Action → Val))) (path : String) (s : Val)
    (a : Action) (hnd : nodupKeys (keys rds) = true) :
    (∀ e fn, (e, fn) ∈ rds → a.type = path ++ "/" ++ e →
      (createNode init rds).reducerFn path (some s) a = produce fn s a) ∧
    ((∀ e ∈ keys rds, a.type ≠ path ++ "/" ++ e) →
      (createNode init rds).reducerFn path (some s) a = s) := by
  constructor
  · intro e fn hmem ht
    simp only [NodeT.reducerFn, createNode]
    rw [ht, findReducer_eq_some hnd hmem]
    rfl
  · intro h
    simp only [NodeT.reducerFn, createNode]
    rw [findReducer_eq_none h]
    rfl

theorem leaf_transition_spec_witness :
    nodupKeys (keys [("inc", incr1)]) = true ∧
    ("inc", incr1) ∈ [("inc", incr1)] ∧
    Action.type ⟨"p/inc", .null⟩ = "p" ++ "/" ++ "inc" ∧
    (createNode (.num 0) [("inc", incr1)]).reducerFn "p" (some (.num 3))
      ⟨"p/inc", .null⟩ = produce incr1 (.num 3) ⟨"p/inc", .null⟩ :=
  ⟨rfl, List.mem_singleton.mpr rfl, rfl,
    (leaf_transition_spec (.num 0) [("inc", incr1)] "p" (.num 3)
        ⟨"p/inc", .null⟩ rfl).1 "inc" incr1 (List.mem_singleton.mpr rfl) rfl⟩

/-- Claim C3: the composed thunk creator stored under `n` in the `_` bucket at
path `P` runs the lifecycle around the operation; an invocation whose
operation settles dispatches exactly Pending (payload null) first, before
the operation is invoked, then exactly one of Resolved (with the resolved
value) or Rejected (with the rejection error), and nothing else. -/
theorem thunk_lifecycle (thks : List (String × (List Val → OpBehavior)))
    (P n : String) (t : List Val → OpBehavior)
    (h : lookupFirst thks n = some t) :
    lookupFirst (thunksBucket thks P) n =
      some (fun args => runThunk P n (t args)) ∧
    (∀ r : Val, runThunk P n (.settles (.fulfilled r)) =
      ([.dispatched ⟨P ++ "/" ++ n ++ "Pending", .null⟩, .invokeOp,
        .dispatched ⟨P ++ "/" ++ n ++ "Resolved", r⟩], .fulfilled .undefined)) ∧
    (∀ e : Val, runThunk P n (.settles (.rejected e)) =
      ([.dispatched ⟨P ++ "/" ++ n ++ "Pending", .null⟩, .invokeOp,
        .dispatched ⟨P ++ "/" ++ n ++ "Rejected", e⟩], .fulfilled .undefined)) :=
  ⟨lookupFirst_thunksBucket P h, fun _ => rfl, fun _ => rfl⟩

theorem thunk_lifecycle_witness :
    lookupFirst [("load", sampleThunk)] "load" = some sampleThunk ∧
    lookupFirst (thunksBucket [("load", sampleThunk)] "p") "load" =
      some (fun args => runThunk "p" "load" (sampleThunk args)) :=
  ⟨rfl, (thunk_lifecycle [("load", sampleThunk)] "p" "load" sampleThunk rfl).1⟩

/-- Claim C4: the composed action creator stored under `n` in the `_` bucket
of a State's registry at path `P` returns exactly
`{type: P ++ "/" ++ n, payload: f args}`; the same creator inside a nested
State attached at label `L` (whose registry is re-rooted at
`P ++ "/" ++ L`) produces type `P ++ "/" ++ L ++ "/" ++ n`. -/
theorem action_creator_paths (sd : StateDef) (P n : String)
    (f : List Val → Val) (h : lookupFirst sd.localActs n = some f)
    (L : String) (ovs : List (String × (Option SNode → Action → SNode))) :
    StateDef.actionsFn sd P =
      .obj (("_", .creators (actionsBucket sd.localActs P))
        :: ChildrenDef.actionsFn sd.childrenOf P) ∧
    lookupFirst (actionsBucket sd.localActs P) n =
      some (fun args => ⟨P ++ "/" ++ n, f args⟩) ∧
    ChildDef.actionsFn (.mk sd ovs) P L = sd.actionsFn (P ++ "/" ++ L) ∧
    lookupFirst (actionsBucket sd.localActs (P ++ "/" ++ L)) n =
      some (fun args => ⟨P ++ "/" ++ L ++ "/" ++ n, f args⟩) := by
  obtain ⟨nd, cs, acts, thks⟩ := sd
  exact ⟨rfl, lookupFirst_actionsBucket P h, rfl,
    lookupFirst_actionsBucket (P ++ "/" ++ L) h⟩

theorem action_creator_paths_witness :
    lookupFirst scenarioA.localActs "increaseByAmount" =
      some increaseByAmount ∧
    lookupFirst (actionsBucket scenarioA.localActs "/a") "increaseByAmount" =
      some (fun args => ⟨"/a" ++ "/" ++ "increaseByAmount",
        increaseByAmount args⟩) :=
  ⟨rfl, (action_creator_paths scenarioA "/a" "increaseByAmount"
      increaseByAmount rfl "b" []).2.1⟩

/-- Claim C7: when the operation's promise rejects with `e`, the wrapper's
`.catch` converts the failure into the dispatch of the Rejected action
carrying `e`, and the promise the composed thunk returns fulfils (with
`undefined`) rather than rejecting: the failure is never re-raised. -/
theorem thunk_rejection_swallowed (P n : String) (e : Val) :
    runThunk P n (.settles (.rejected e)) =
      ([.dispatched ⟨P ++ "/" ++ n ++ "Pending", .null⟩, .invokeOp,
        .dispatched ⟨P ++ "/" ++ n ++ "Rejected", e⟩], .fulfilled .undefined) :=
  rfl

/-- Claim C10: when the operation throws synchronously on invocation, the
wrapper has already dispatched Pending, dispatches neither Resolved nor
Rejected, and the promise the composed thunk returns rejects with the
thrown error. -/
theorem thunk_sync_throw (P n : String) (e : Val) :
    runThunk P n (.throws e) =
      ([.dispatched ⟨P ++ "/" ++ n ++ "Pending", .null⟩, .invokeOp],
        .rejected e) :=
  rfl

end RST

namespace RST

/-! ## Seeding and no-op laws -/

/-- A one-motive induction principle for `ChildrenDef` (the auto-generated
recursor of the mutual family has several motives, so the `induction`
tactic cannot use it directly). -/
theorem ChildrenDef.indSimple {motive : ChildrenDef → Prop}
    (hnil : motive .nil)
    (hcons : ∀ l c rest, motive rest → motive (.cons l c rest))
    (cs : ChildrenDef) : motive cs := by
  have key : ∀ N : Nat, ∀ cs2 : ChildrenDef, sizeOf cs2 < N → motive cs2 := by
    intro N
    induction N with
    | zero => intro cs2 h; exact absurd h (Nat.not_lt_zero _)
    | succ N ih =>
        intro cs2 hlt
        cases cs2 with
        | nil => exact hnil
        | cons l c rest =>
            apply hcons
            apply ih
            have h1 : sizeOf rest < sizeOf (ChildrenDef.cons l c rest) := by
              simp only [ChildrenDef.cons.sizeOf_spec]; omega
            omega
  exact key (sizeOf cs + 1) cs (Nat.lt_succ_self _)

theorem seed_children_aux (N : Nat)
    (ih : ∀ sd : StateDef, sizeOf sd < N → ∀ path (a : Action),
      StateDef.noHandler sd path a.type = true →
      StateDef.reducerFn sd path none a = StateDef.seed sd) :
    ∀ cs : ChildrenDef, sizeOf cs < N → ∀ path (a : Action),
      ChildrenDef.noHandler cs path a.type = true →
      ChildrenDef.reduceFn cs path none a = ChildrenDef.seed cs := by
  intro cs
  induction cs using ChildrenDef.indSimple with
  | hnil => intro _ path a _; rfl
  | hcons label c rest ihr =>
      intro hlt path a h
      obtain ⟨cst, ovs⟩ := c
      simp only [ChildrenDef.noHandler, ChildDef.noHandler, Bool.and_eq_true,
        Option.isNone_iff_eq_none] at h
      obtain ⟨⟨hov, hcst⟩, hrest⟩ := h
      have hszc : sizeOf cst < N := by
        have h1 : sizeOf cst <
            sizeOf (ChildrenDef.cons label (ChildDef.mk cst ovs) rest) := by
          simp only [ChildrenDef.cons.sizeOf_spec, ChildDef.mk.sizeOf_spec]
          omega
        omega
      have hszr : sizeOf rest < N := by
        have h1 : sizeOf rest <
            sizeOf (ChildrenDef.cons label (ChildDef.mk cst ovs) rest) := by
          simp only [ChildrenDef.cons.sizeOf_spec]
          omega
        omega
      simp only [ChildrenDef.reduceFn, ChildrenDef.seed, ChildDef.seed,
        ChildDef.reducerFn, kidLookup, hov]
      rw [ih cst hszc (path ++ "/" ++ label) a hcst, ihr hszr path a hrest]

theorem seed_aux : ∀ N : Nat, ∀ sd : StateDef, sizeOf sd < N →
    ∀ path (a : Action), StateDef.noHandler sd path a.type = true →
    StateDef.reducerFn sd path none a = StateDef.seed sd := by
  intro N
  induction N with
  | zero => intro sd h; exact absurd h (Nat.not_lt_zero _)
  | succ N ih =>
      intro sd hlt path a h
      obtain ⟨nd, cs, acts, thks⟩ := sd
      simp only [StateDef.noHandler, Bool.and_eq_true,
        Option.isNone_iff_eq_none] at h
      obtain ⟨hnode, hcs⟩ := h
      have hszcs : sizeOf cs < N := by
        have h1 : sizeOf cs < sizeOf (StateDef.mk nd cs acts thks) := by
          simp only [StateDef.mk.sizeOf_spec]; omega
        omega
      simp only [StateDef.reducerFn, StateDef.seed, Option.map_none',
        NodeT.reducerFn, hnode, Option.getD_none]
      rw [seed_children_aux N (fun sd2 hs => ih sd2 hs) cs hszcs path a hcs]

/-- Claim C6: applying the composed transition function at any path to an
`undefined` prior state node, with an action whose type no handler in the
tree matches, returns the fully seeded tree: the Leaf Node's initial value
at `node`, and under every child label that child's own seeded tree. -/
theorem undefined_seeds_tree (sd : StateDef) (path : String) (a : Action)
    (h : sd.noHandler path a.type = true) :
    sd.reducerFn path none a = sd.seed :=
  seed_aux (sizeOf sd + 1) sd (Nat.lt_succ_self _) path a h

theorem undefined_seeds_tree_witness :
    StateDef.noHandler scenarioRoot "" "zzz" = true ∧
    StateDef.reducerFn scenarioRoot "" none ⟨"zzz", .null⟩ =
      StateDef.seed scenarioRoot :=
  ⟨rfl, undefined_seeds_tree scenarioRoot "" ⟨"zzz", .null⟩ rfl⟩

theorem labels_forall_ne_of_contains_false {ls : List String} {x : String}
    (h : ls.contains x = false) : ∀ l ∈ ls, l ≠ x := by
  intro l hm heq
  subst heq
  exact not_mem_of_contains_false h hm

theorem reduceFn_skip_head (path l : String) (s0 : SNode) (a : Action) :
    ∀ (rest : ChildrenDef) (ks : List (String × SNode)),
      (∀ lab ∈ rest.labels, lab ≠ l) →
      ChildrenDef.reduceFn rest path (some ((l, s0) :: ks)) a =
        ChildrenDef.reduceFn rest path (some ks) a := by
  intro rest
  induction rest using ChildrenDef.indSimple with
  | hnil => intro ks _; rfl
  | hcons label c r2 ihr =>
      intro ks h
      have hne : label ≠ l := h label (by
        simp only [ChildrenDef.labels]; exact List.mem_cons_self _ _)
      have hrest : ∀ lab ∈ r2.labels, lab ≠ l := fun lab hm =>
        h lab (by simp only [ChildrenDef.labels]; exact List.mem_cons_of_mem _ hm)
      simp only [ChildrenDef.reduceFn, kidLookup, lookupFirst]
      rw [if_neg (fun hh => hne hh.symm), ihr ks hrest]

theorem noop_children_aux (N : Nat)
    (ih : ∀ sd : StateDef, sizeOf sd < N → ∀ path (s : SNode) (a : Action),
      StateDef.wellFormed sd = true → StateDef.conforms sd s = true →
      StateDef.noHandler sd path a.type = true →
      StateDef.reducerFn sd path (some s) a = s) :
    ∀ cs : ChildrenDef, sizeOf cs < N →
      ∀ (ks : List (String × SNode)) path (a : Action),
      nodupKeys cs.labels = true → ChildrenDef.wellFormed cs = true →
      ChildrenDef.conforms cs ks = true →
      ChildrenDef.noHandler cs path a.type = true →
      ChildrenDef.reduceFn cs path (some ks) a = ks := by
  intro cs
  induction cs using ChildrenDef.indSimple with
  | hnil =>
      intro _ ks path a _ _ hc _
      cases ks with
      | nil => rfl
      | cons hd tl =>
          simp only [ChildrenDef.conforms, List.isEmpty_cons] at hc
          exact Bool.noConfusion hc
  | hcons label c r2 ihr =>
      intro hlt ks path a hnd hwf hc hnh
      obtain ⟨cst, ovs⟩ := c
      cases ks with
      | nil =>
          simp only [ChildrenDef.conforms] at hc
          exact Bool.noConfusion hc
      | cons khd krest =>
          obtain ⟨l, s0⟩ := khd
          simp only [ChildrenDef.conforms, Bool.and_eq_true, beq_iff_eq,
            ChildDef.conforms] at hc
          obtain ⟨⟨hl, hcf⟩, hcrest⟩ := hc
          subst hl
          simp only [ChildrenDef.labels] at hnd
          obtain ⟨hcont, hnd2⟩ := nodupKeys_cons hnd
          simp only [ChildrenDef.wellFormed, ChildDef.wellFormed,
            Bool.and_eq_true] at hwf
          obtain ⟨hwfc, hwfr⟩ := hwf
          simp only [ChildrenDef.noHandler, ChildDef.noHandler, Bool.and_eq_true,
            Option.isNone_iff_eq_none] at hnh
          obtain ⟨⟨hov, hcstnh⟩, hnhrest⟩ := hnh
          have hszc : sizeOf cst < N := by
            have h1 : sizeOf cst <
                sizeOf (ChildrenDef.cons l (ChildDef.mk cst ovs) r2) := by
              simp only [ChildrenDef.cons.sizeOf_spec, ChildDef.mk.sizeOf_spec]
              omega
            omega
          have hszr : sizeOf r2 < N := by
            have h1 : sizeOf r2 <
                sizeOf (ChildrenDef.cons l (ChildDef.mk cst ovs) r2) := by
              simp only [ChildrenDef.cons.sizeOf_spec]; omega
            omega
          have hkid : kidLookup (some ((l, s0) :: krest)) l = some s0 := by
            simp [kidLookup, lookupFirst]
          simp only [ChildrenDef.reduceFn, hkid, ChildDef.reducerFn, hov]
          rw [reduceFn_skip_head path l s0 a r2 krest
              (labels_forall_ne_of_contains_false hcont)]
          rw [ih cst hszc (path ++ "/" ++ l) s0 a hwfc hcf hcstnh,
            ihr hszr krest path a hnd2 hwfr hcrest hnhrest]

theorem noop_aux : ∀ N : Nat, ∀ sd : StateDef, sizeOf sd < N →
    ∀ path (s : SNode) (a : Action), StateDef.wellFormed sd = true →
    StateDef.conforms sd s = true → StateDef.noHandler sd path a.type = true →
    StateDef.reducerFn sd path (some s) a = s := by
  intro N
  induction N with
  | zero => intro sd h; exact absurd h (Nat.not_lt_zero _)
  | succ N ih =>
      intro sd hlt path s a hwf hc hnh
      obtain ⟨nd, cs, acts, thks⟩ := sd
      obtain ⟨v, ks⟩ := s
      simp only [StateDef.wellFormed, Bool.and_eq_true] at hwf
      obtain ⟨hnd, hwfcs⟩ := hwf
      simp only [StateDef.conforms] at hc
      simp only [StateDef.noHandler, Bool.and_eq_true,
        Option.isNone_iff_eq_none] at hnh
      obtain ⟨hnode, hnhcs⟩ := hnh
      have hszcs : sizeOf cs < N := by
        have h1 : sizeOf cs < sizeOf (StateDef.mk nd cs acts thks) := by
          simp only [StateDef.mk.sizeOf_spec]; omega
        omega
      simp only [StateDef.reducerFn, Option.map_some', SNode.nodeVal, SNode.kids,
        NodeT.reducerFn, hnode, Option.getD_some]
      rw [noop_children_aux N (fun sd2 hs => ih sd2 hs) cs hszcs ks path a hnd
        hwfcs hc hnhcs]

/-- Claim C5: dispatching an action whose type matches no leaf reducer and no
child override anywhere in the tree returns a state node equal to the input,
every subtree included (in the embedding, deep equality and referential
identity of untouched subtrees coincide); the prior state mirrors the
definition tree and child labels are unique, as for every state the store
produces. -/
theorem noop_action_identity (sd : StateDef) (path : String) (s : SNode)
    (a : Action) (hwf : sd.wellFormed = true) (hc : sd.conforms s = true)
    (h : sd.noHandler path a.type = true) :
    sd.reducerFn path (some s) a = s :=
  noop_aux (sizeOf sd + 1) sd (Nat.lt_succ_self _) path s a hwf hc h

theorem noop_action_identity_witness :
    StateDef.wellFormed scenarioRoot = true ∧
    StateDef.conforms scenarioRoot scenarioRoot.seed = true ∧
    StateDef.noHandler scenarioRoot "" "zzz" = true ∧
    StateDef.reducerFn scenarioRoot "" (some scenarioRoot.seed)
      ⟨"zzz", .null⟩ = scenarioRoot.seed :=
  ⟨rfl, rfl, rfl,
    noop_action_identity scenarioRoot "" scenarioRoot.seed ⟨"zzz", .null⟩
      rfl rfl rfl⟩

/-- Claim C8: in the end-to-end scenario, the action created by
`actions(s => s.a).increaseByAmount(5)` has type "/a/increaseByAmount" and
payload 5; dispatching it against the seeded tree changes
`children.a.node.value` from 0 to 5 and leaves the root's own `node` value
unchanged (equal to the prior root node value). -/
theorem child_increase_scenario :
    scenarioRoot.seed =
      .mk (.obj [("value", .num 0)])
        [("a", .mk (.obj [("value", .num 0)]) [])] ∧
    scenarioDispatch = ⟨"/a/increaseByAmount", .num 5⟩ ∧
    StateDef.reducerFn scenarioRoot "" (some scenarioRoot.seed)
        scenarioDispatch =
      .mk (.obj [("value", .num 0)])
        [("a", .mk (.obj [("value", .num 5)]) [])] ∧
    (StateDef.reducerFn scenarioRoot "" (some scenarioRoot.seed)
        scenarioDispatch).nodeVal = scenarioRoot.seed.nodeVal :=
  ⟨rfl, rfl, rfl, rfl⟩

end RST

namespace RST

/-! ## Registry object lookup lemmas -/

theorem objGet_mem {β : Type} :
    ∀ (es : List (String × β)) (k : String) (v : β),
      objGet es k = some v → (k, v) ∈ es := by
  intro es
  induction es with
  | nil => intro k v h; simp [objGet] at h
  | cons hd rest ih =>
      intro k v h
      obtain ⟨k0, v0⟩ := hd
      simp only [objGet] at h
      rcases hrest : objGet rest k with _ | w
      · simp only [hrest] at h
        by_cases hk : k0 = k
        · rw [if_pos hk] at h
          injection h with h2
          subst hk
          subst h2
          exact List.mem_cons_self _ _
        · rw [if_neg hk] at h
          cases h
      · simp only [hrest] at h
        injection h with h2
        subst h2
        exact List.mem_cons_of_mem _ (ih k w hrest)

theorem lookupFirst_eq_none_of_not_mem {β : Type} :
    ∀ (es : List (String × β)) (k : String), k ∉ keys es →
      lookupFirst es k = none := by
  intro es
  induction es with
  | nil => intro k _; rfl
  | cons hd rest ih =>
      intro k h
      obtain ⟨k0, v0⟩ := hd
      rw [keys_cons] at h
      simp only [List.mem_cons, not_or] at h
      obtain ⟨h1, h2⟩ := h
      simp only [lookupFirst]
      rw [if_neg (fun hh => h1 hh.symm)]
      exact ih k h2

theorem objGet_eq_lookupFirst {β : Type} :
    ∀ (es : List (String × β)), nodupKeys (keys es) = true →
      ∀ k, objGet es k = lookupFirst es k := by
  intro es
  induction es with
  | nil => intro _ k; rfl
  | cons hd rest ih =>
      intro hnd k
      obtain ⟨k0, v0⟩ := hd
      rw [keys_cons] at hnd
      obtain ⟨hcont, hnd2⟩ := nodupKeys_cons hnd
      simp only [objGet, lookupFirst]
      rw [ih hnd2 k]
      by_cases hk : k0 = k
      · subst hk
        rw [lookupFirst_eq_none_of_not_mem rest k0
          (not_mem_of_contains_false hcont)]
      · rcases hl : lookupFirst rest k with _ | w
        · simp [hk]
        · simp [hk]

theorem actionsFn_keys : ∀ (cs : ChildrenDef) (P : String),
    keys (ChildrenDef.actionsFn cs P) = cs.labels := by
  intro cs
  induction cs using ChildrenDef.indSimple with
  | hnil => intro P; rfl
  | hcons label c rest ih =>
      intro P
      simp only [ChildrenDef.actionsFn, keys_cons, ChildrenDef.labels, ih]

theorem thunksFn_keys : ∀ (cs : ChildrenDef) (P : String),
    keys (ChildrenDef.thunksFn cs P) = cs.labels := by
  intro cs
  induction cs using ChildrenDef.indSimple with
  | hnil => intro P; rfl
  | hcons label c rest ih =>
      intro P
      simp only [ChildrenDef.thunksFn, keys_cons, ChildrenDef.labels, ih]

theorem actionsFn_lookup : ∀ (cs : ChildrenDef) (label : String) (c : ChildDef),
    cs.findChild label = some c → ∀ P,
    lookupFirst (ChildrenDef.actionsFn cs P) label =
      some (ChildDef.actionsFn c P label) := by
  intro cs
  induction cs using ChildrenDef.indSimple with
  | hnil => intro label c h; simp [ChildrenDef.findChild] at h
  | hcons l c2 rest ih =>
      intro label c h P
      simp only [ChildrenDef.findChild] at h
      by_cases hl : l = label
      · subst hl
        rw [if_pos rfl] at h
        injection h with h2
        subst h2
        simp [ChildrenDef.actionsFn, lookupFirst]
      · rw [if_neg hl] at h
        simp only [ChildrenDef.actionsFn, lookupFirst]
        rw [if_neg hl]
        exact ih label c h P

theorem thunksFn_lookup : ∀ (cs : ChildrenDef) (label : String) (c : ChildDef),
    cs.findChild label = some c → ∀ P,
    lookupFirst (ChildrenDef.thunksFn cs P) label =
      some (ChildDef.thunksFn c P label) := by
  intro cs
  induction cs using ChildrenDef.indSimple with
  | hnil => intro label c h; simp [ChildrenDef.findChild] at h
  | hcons l c2 rest ih =>
      intro label c h P
      simp only [ChildrenDef.findChild] at h
      by_cases hl : l = label
      · subst hl
        rw [if_pos rfl] at h
        injection h with h2
        subst h2
        simp [ChildrenDef.thunksFn, lookupFirst]
      · rw [if_neg hl] at h
        simp only [ChildrenDef.thunksFn, lookupFirst]
        rw [if_neg hl]
        exact ih label c h P

theorem childDef_actionsFn_isObj (c : ChildDef) (P label : String) :
    ∃ es, ChildDef.actionsFn c P label = Reg.obj es := by
  obtain ⟨cst, ovs⟩ := c
  obtain ⟨nd, cs, acts, thks⟩ := cst
  exact ⟨_, rfl⟩

theorem childDef_thunksFn_isObj (c : ChildDef) (P label : String) :
    ∃ es, ChildDef.thunksFn c P label = Reg.obj es := by
  obtain ⟨cst, ovs⟩ := c
  obtain ⟨nd, cs, acts, thks⟩ := cst
  exact ⟨_, rfl⟩

theorem actionsFn_values_obj :
    ∀ (cs : ChildrenDef) (P : String) (p : String × Reg Action),
    p ∈ ChildrenDef.actionsFn cs P → ∃ es, p.2 = Reg.obj es := by
  intro cs
  induction cs using ChildrenDef.indSimple with
  | hnil => intro P p h; simp [ChildrenDef.actionsFn] at h
  | hcons l c rest ih =>
      intro P p h
      simp only [ChildrenDef.actionsFn] at h
      rcases List.mem_cons.mp h with heq | hm
      · subst heq
        exact childDef_actionsFn_isObj c P l
      · exact ih P p hm

theorem thunksFn_values_obj :
    ∀ (cs : ChildrenDef) (P : String) (p : String × Reg (List TEvent × PromiseOutcome)),
    p ∈ ChildrenDef.thunksFn cs P → ∃ es, p.2 = Reg.obj es := by
  intro cs
  induction cs using ChildrenDef.indSimple with
  | hnil => intro P p h; simp [ChildrenDef.thunksFn] at h
  | hcons l c rest ih =>
      intro P p h
      simp only [ChildrenDef.thunksFn] at h
      rcases List.mem_cons.mp h with heq | hm
      · subst heq
        exact childDef_thunksFn_isObj c P l
      · exact ih P p hm

/-- Claim C9: when a Child Link is attached at the literal label "_", the
spread of child registries follows the `_` bucket in the returned object,
so the built registry maps key "_" to that child's registry subtree rather
than to the map of local creators; every reachable value of the registry
object is a subtree, so the State's own local action and thunk creators are
unreachable through it. -/
theorem underscore_child_shadows_local (nd : NodeT) (cs : ChildrenDef)
    (acts : List (String × (List Val → Val)))
    (thks : List (String × (List Val → OpBehavior))) (P : String)
    (c : ChildDef) (hfind : cs.findChild "_" = some c)
    (hnd : nodupKeys cs.labels = true) :
    StateDef.actionsFn (.mk nd cs acts thks) P =
      .obj (("_", .creators (actionsBucket acts P))
        :: ChildrenDef.actionsFn cs P) ∧
    objGet (("_", Reg.creators (actionsBucket acts P))
        :: ChildrenDef.actionsFn cs P) "_" =
      some (ChildDef.actionsFn c P "_") ∧
    (∀ k v, objGet (("_", Reg.creators (actionsBucket acts P))
        :: ChildrenDef.actionsFn cs P) k = some v → ∃ es, v = Reg.obj es) ∧
    StateDef.thunksFn (.mk nd cs acts thks) P =
      .obj (("_", .creators (thunksBucket thks P))
        :: ChildrenDef.thunksFn cs P) ∧
    objGet (("_", Reg.creators (thunksBucket thks P))
        :: ChildrenDef.thunksFn cs P) "_" =
      some (ChildDef.thunksFn c P "_") ∧
    (∀ k v, objGet (("_", Reg.creators (thunksBucket thks P))
        :: ChildrenDef.thunksFn cs P) k = some v → ∃ es, v = Reg.obj es) := by
  have hndA : nodupKeys (keys (ChildrenDef.actionsFn cs P)) = true := by
    rw [actionsFn_keys]; exact hnd
  have hndT : nodupKeys (keys (ChildrenDef.thunksFn cs P)) = true := by
    rw [thunksFn_keys]; exact hnd
  have hgetA : objGet (ChildrenDef.actionsFn cs P) "_" =
      some (ChildDef.actionsFn c P "_") := by
    rw [objGet_eq_lookupFirst _ hndA]
    exact actionsFn_lookup cs "_" c hfind P
  have hgetT : objGet (ChildrenDef.thunksFn cs P) "_" =
      some (ChildDef.thunksFn c P "_") := by
    rw [objGet_eq_lookupFirst _ hndT]
    exact thunksFn_lookup cs "_" c hfind P
  refine ⟨rfl, ?_, ?_, rfl, ?_, ?_⟩
  · simp only [objGet, hgetA]
  · intro k v h
    simp only [objGet] at h
    rcases hrest : objGet (ChildrenDef.actionsFn cs P) k with _ | w
    · simp only [hrest] at h
      by_cases hk : "_" = k
      · exfalso
        rw [← hk] at hrest
        rw [hrest] at hgetA
        cases hgetA
      · rw [if_neg hk] at h
        cases h
    · simp only [hrest] at h
      injection h with h2
      subst h2
      exact actionsFn_values_obj cs P (k, w) (objGet_mem _ k w hrest)
  · simp only [objGet, hgetT]
  · intro k v h
    simp only [objGet] at h
    rcases hrest : objGet (ChildrenDef.thunksFn cs P) k with _ | w
    · simp only [hrest] at h
      by_cases hk : "_" = k
      · exfalso
        rw [← hk] at hrest
        rw [hrest] at hgetT
        cases hgetT
      · rw [if_neg hk] at h
        cases h
    · simp only [hrest] at h
      injection h with h2
      subst h2
      exact thunksFn_values_obj cs P (k, w) (objGet_mem _ k w hrest)

theorem underscore_child_shadows_local_witness :
    ChildrenDef.findChild (.cons "_" (.mk scenarioA []) .nil) "_" =
      some (.mk scenarioA []) ∧
    nodupKeys (ChildrenDef.labels (.cons "_" (.mk scenarioA []) .nil)) = true ∧
    objGet (("_", Reg.creators (actionsBucket [("go", increaseByAmount)] ""))
        :: ChildrenDef.actionsFn (.cons "_" (.mk scenarioA []) .nil) "") "_" =
      some (ChildDef.actionsFn (.mk scenarioA []) "" "_") :=
  ⟨rfl, rfl,
    (underscore_child_shadows_local (createNode .null [])
        (.cons "_" (.mk scenarioA []) .nil) [("go", increaseByAmount)] [] ""
        (.mk scenarioA []) rfl rfl).2.1⟩

end RST
